import Mathlib

/-!
Shallow embedding of the ZEOTAP data-science notebooks (customer segmentation
and lookalike model).  Tables are lists of records, numeric columns are `ℚ`
(pandas floats/ints), calendar dates are `ℤ` (whole days since an epoch, as
the code only ever takes day differences of parsed timestamps).
-/

/-- A row of `Customers.csv`: identifier, region, signup date. -/
structure Customer where
  CustomerID : String
  Region : String
  SignupDate : Int
deriving DecidableEq, Repr

/-- A row of `Products.csv`: identifier, name, category, price. -/
structure Product where
  ProductID : String
  ProductName : String
  Category : String
  Price : ℚ
deriving DecidableEq, Repr

/-- A row of `Transactions.csv` (after the loader's column renaming). -/
structure Transaction where
  TransactionID : String
  CustomerID : String
  ProductID : String
  Quantity : Int
  TotalValue : ℚ
  TransactionDate : Int
deriving DecidableEq, Repr

/-- Lexicographic code-point comparison of strings, Python's `<` on `str`
(written out over the character lists so that it evaluates). -/
def charsLt : List Char → List Char → Bool
  | [], [] => false
  | [], _ :: _ => true
  | _ :: _, [] => false
  | a :: as, b :: bs =>
    if a.toNat < b.toNat then true
    else if b.toNat < a.toNat then false
    else charsLt as bs

/-- `a ≤ b` on Python strings. -/
def strLeB (a b : String) : Bool := !(charsLt b.data a.data)

/-- Sorted list of the distinct values of a string column: pandas `groupby`,
`crosstab` and `get_dummies` all produce keys/columns sorted ascending. -/
def sortKeys (l : List String) : List String :=
  List.insertionSort (fun a b => strLeB a b) l.dedup

/-- The group keys of `transactions.groupby('CustomerID')`. -/
def groupKeys (ts : List Transaction) : List String :=
  sortKeys (ts.map (·.CustomerID))

/-- One row of the flattened `purchase_stats` frame. -/
structure PurchaseStat where
  CustomerID : String
  TotalValue_sum : ℚ
  TotalValue_mean : ℚ
  TotalValue_count : ℚ
  Quantity_sum : ℚ
  Quantity_mean : ℚ
deriving DecidableEq, Repr

/-- `transactions.groupby('CustomerID').agg({'TotalValue': ['sum','mean','count'],
'Quantity': ['sum','mean']})` with flattened column names. -/
def purchase_stats (ts : List Transaction) : List PurchaseStat :=
  (groupKeys ts).map fun c =>
    let g := ts.filter fun t => t.CustomerID = c
    let n : ℚ := g.length
    let vsum : ℚ := (g.map (·.TotalValue)).sum
    let qsum : ℚ := ((g.map (·.Quantity)).sum : ℤ)
    { CustomerID := c, TotalValue_sum := vsum, TotalValue_mean := vsum / n,
      TotalValue_count := n, Quantity_sum := qsum, Quantity_mean := qsum / n }

/-- `transactions.merge(products[['ProductID','Category']], on='ProductID')`,
kept as the pairs (CustomerID, Category) that `pd.crosstab` consumes. -/
def product_categories (ts : List Transaction) (ps : List Product) :
    List (String × String) :=
  ts.flatMap fun t =>
    (ps.filter fun p => p.ProductID = t.ProductID).map fun p =>
      (t.CustomerID, p.Category)

/-- The category columns of the crosstab: distinct categories, sorted. -/
def categoriesOf (pc : List (String × String)) : List String :=
  sortKeys (pc.map (·.2))

/-- `pd.crosstab(CustomerID, Category, normalize='index')`: for each customer
appearing in the joined frame, each category's count divided by the customer's
row total. -/
def category_pivoted (pc : List (String × String)) :
    List (String × List (String × ℚ)) :=
  (sortKeys (pc.map (·.1))).map fun c =>
    let mine := pc.filter fun r => r.1 = c
    (c, (categoriesOf pc).map fun cat =>
      (cat, ((mine.filter fun r => r.2 = cat).length : ℚ) / (mine.length : ℚ)))

/-- Maximum of a list of dates; `0` for the empty list (the code's `NaT` case,
which is never hit on the rows the claims quantify over). -/
def listMax (l : List Int) : Int :=
  match l with
  | [] => 0
  | x :: xs => xs.foldl max x

/-- `pd.to_datetime(transactions['TransactionDate']).max()`. -/
def latestDate (ts : List Transaction) : Int :=
  listMax (ts.map (·.TransactionDate))

/-- A single customer's own latest transaction date. -/
def custLatest (ts : List Transaction) (c : String) : Int :=
  listMax ((ts.filter fun t => t.CustomerID = c).map (·.TransactionDate))

/-- The `recency` frame: per transacting customer,
`(latest_date - pd.to_datetime(x).max()).days`. -/
def recencyTable (ts : List Transaction) : List (String × Int) :=
  (groupKeys ts).map fun c => (c, latestDate ts - custLatest ts c)

/-- The region columns of `pd.get_dummies`: distinct observed regions, sorted. -/
def regionsOf (cs : List Customer) : List String :=
  sortKeys (cs.map (·.Region))

/-- `pd.get_dummies(customers[['CustomerID','Region']], columns=['Region'])`:
one row per customer row, a 0/1 indicator per observed region value. -/
def region_dummies (cs : List Customer) : List (String × List (String × ℚ)) :=
  cs.map fun c =>
    (c.CustomerID, (regionsOf cs).map fun r => (r, if c.Region = r then (1 : ℚ) else 0))

/-- `left.merge(right, on=key, how='left')`: each left row paired with every
matching right row, or with `none` when the key has no match. -/
def ljoin {α β : Type} (left : List α) (key : α → String)
    (right : List (String × β)) : List (α × Option β) :=
  left.flatMap fun l =>
    match right.filter fun r => r.1 = key l with
    | [] => [(l, none)]
    | ms => ms.map fun m => (l, some m.2)

/-- One row of the final feature table.  Dynamic columns (category shares,
region indicators) are kept as labelled association lists in column order. -/
structure FeatureRow where
  CustomerID : String
  TotalValue_sum : ℚ
  TotalValue_mean : ℚ
  TotalValue_count : ℚ
  Quantity_sum : ℚ
  Quantity_mean : ℚ
  categoryShare : List (String × ℚ)
  recency : ℚ
  regionFlag : List (String × ℚ)
deriving DecidableEq, Repr

/-- Build one output row from the three left-join results, applying the final
`fillna(0)`: a missing crosstab match becomes all-zero shares, a missing
recency becomes 0, a missing region match becomes all-zero indicators. -/
def fillRow (cats regs : List String)
    (x : ((PurchaseStat × Option (List (String × ℚ))) × Option Int) ×
      Option (List (String × ℚ))) : FeatureRow :=
  let s := x.1.1.1
  { CustomerID := s.CustomerID
    TotalValue_sum := s.TotalValue_sum
    TotalValue_mean := s.TotalValue_mean
    TotalValue_count := s.TotalValue_count
    Quantity_sum := s.Quantity_sum
    Quantity_mean := s.Quantity_mean
    categoryShare := (x.1.1.2).getD (cats.map fun cat => (cat, 0))
    recency := ((x.1.2).getD 0 : Int)
    regionFlag := (x.2).getD (regs.map fun r => (r, 0)) }

/-- `create_customer_features` from the clustering notebook: purchase
statistics, category shares, recency and region indicators, left-joined on
CustomerID and missing values filled with 0. -/
def create_customer_features (customers : List Customer)
    (transactions : List Transaction) (products : List Product) :
    List FeatureRow :=
  let ps := purchase_stats transactions
  let pc := product_categories transactions products
  let cp := category_pivoted pc
  let rc := recencyTable transactions
  let rd := region_dummies customers
  let j1 := ljoin ps (·.CustomerID) cp
  let j2 := ljoin j1 (fun x => x.1.CustomerID) rc
  let j3 := ljoin j2 (fun x => x.1.1.CustomerID) rd
  j3.map (fillRow (categoriesOf pc) (regionsOf customers))

/-- `create_customer_features` from the lookalike notebook (its source text is
identical to the clustering notebook's). -/
def create_customer_features_lookalike (customers : List Customer)
    (transactions : List Transaction) (products : List Product) :
    List FeatureRow :=
  let ps := purchase_stats transactions
  let pc := product_categories transactions products
  let cp := category_pivoted pc
  let rc := recencyTable transactions
  let rd := region_dummies customers
  let j1 := ljoin ps (·.CustomerID) cp
  let j2 := ljoin j1 (fun x => x.1.CustomerID) rc
  let j3 := ljoin j2 (fun x => x.1.1.CustomerID) rd
  j3.map (fillRow (categoriesOf pc) (regionsOf customers))

/-!
The similarity engine.  `StandardScaler` and `cosine_similarity` are external
sklearn library calls producing a floating-point matrix; the model takes the
resulting similarity matrix as the input `sim` (row `i` is
`similarity_matrix[i]`), with exact rationals in place of floats.  Everything
the repository itself computes from that matrix is embedded below.
-/

/-- The dict comprehension
`{cid: idx for idx, cid in enumerate(features['CustomerID'])}` looked up at a
target id: the index of the *last* occurrence (later assignments overwrite),
`none` when absent. -/
def customer_indices : List String → String → Option Nat
  | [], _ => none
  | x :: xs, t =>
    match customer_indices xs t with
    | some i => some (i + 1)
    | none => if x = t then some 0 else none

/-- Ascending order on row indices by score, ties by original index: the order
realised by a stable `np.argsort`. -/
def lexLt (s : List ℚ) (i j : Nat) : Prop :=
  s.getD i 0 < s.getD j 0 ∨ (s.getD i 0 = s.getD j 0 ∧ i ≤ j)

instance (s : List ℚ) : DecidableRel (lexLt s) := fun _ _ => by
  unfold lexLt; infer_instance

/-- `np.argsort(scores)`: the row indices sorted by ascending score (stable
sort model: tied scores keep their original index order). -/
def argsort (scores : List ℚ) : List Nat :=
  List.insertionSort (lexLt scores) (List.range scores.length)

/-- `np.argsort(scores)[-4:][:-1][::-1]`: keep the last four positions of the
ascending argsort, drop the final (highest-scoring) one, reverse. -/
def similar_indices (scores : List ℚ) : List Nat :=
  (((argsort scores).drop (scores.length - 4)).dropLast).reverse

/-- The list comprehension building one customer's recommendation list:
`[(features['CustomerID'].iloc[idx], float(scores[idx])) for idx in similar_indices]`. -/
def recsFor (ids : List String) (scores : List ℚ) : List (String × ℚ) :=
  (similar_indices scores).map fun idx => (ids.getD idx "", scores.getD idx 0)

/-- Python dict assignment `d[k] = v` on an insertion-ordered association
list: overwrite in place when the key exists, append otherwise. -/
def dictInsert {β : Type} (m : List (String × β)) (k : String) (v : β) :
    List (String × β) :=
  if m.any fun p => p.1 = k then m.map fun p => if p.1 = k then (k, v) else p
  else m ++ [(k, v)]

/-- `calculate_similarity` from the lookalike notebook, from the similarity
matrix onward: for each target id found among the feature rows' CustomerID
values, store the top-3 list built by `similar_indices` into the
`recommendations` dict; silently skip absent targets. -/
def calculate_similarity (ids : List String) (sim : List (List ℚ))
    (targets : List String) : List (String × List (String × ℚ)) :=
  targets.foldl (fun recommendations target_id =>
    match customer_indices ids target_id with
    | none => recommendations
    | some target_idx =>
      dictInsert recommendations target_id (recsFor ids (sim.getD target_idx [])))
    []

/-!
Control-flow model of `create_customer_features`'s `try/except`.  The one
exception source representable at this level is pandas' `KeyError` when a
required column is absent from a loaded CSV, so a raw frame is a typed row
list together with the header actually present in the file.  The `except`
handler first prints the error, then prints
`purchase_stats.columns`, `category_pivoted.columns` and
`region_dummies.columns`; a local that was never assigned (because the
exception occurred before its assignment) raises `UnboundLocalError` there,
which is outside the `try` block and therefore propagates to the caller.
-/

/-- A Python exception as seen by the caller. -/
inductive PyErr where
  | keyError : String → PyErr
  | unboundLocal : String → PyErr
deriving DecidableEq, Repr

/-- A loaded CSV: its header (the columns actually present) plus the typed
rows used by the happy path. -/
structure RawFrame (ρ : Type) where
  cols : List String
  rows : List ρ

/-- The `except Exception` handler of `create_customer_features`, given how
many of the four local assignments (`purchase_stats`, `category_pivoted`,
`recency`, `region_dummies`) completed before the exception: it dies with
`UnboundLocalError` at the first diagnostic print whose local is unbound,
and only reaches `return None` when all printed locals were assigned. -/
def except_diagnostic (stagesDone : Nat) : Except PyErr (Option (List FeatureRow)) :=
  if stagesDone < 1 then .error (.unboundLocal "purchase_stats")
  else if stagesDone < 2 then .error (.unboundLocal "category_pivoted")
  else if stagesDone < 4 then .error (.unboundLocal "region_dummies")
  else .ok none

/-- `create_customer_features` with its `try/except` control flow over raw
frames: each stage's `KeyError` check is the presence of the columns that
stage selects, and a failure routes through the `except` handler with the
locals bound so far.  `.ok (some f)` models a returned feature table,
`.ok none` a caught exception with `return None`, and `.error e` an
exception escaping to the caller. -/
def create_customer_features_raw (c : RawFrame Customer)
    (t : RawFrame Transaction) (p : RawFrame Product) :
    Except PyErr (Option (List FeatureRow)) :=
  if "CustomerID" ∈ t.cols ∧ "TotalValue" ∈ t.cols ∧ "Quantity" ∈ t.cols then
    if "ProductID" ∈ t.cols ∧ "ProductID" ∈ p.cols ∧ "Category" ∈ p.cols then
      if "TransactionDate" ∈ t.cols then
        if "CustomerID" ∈ c.cols ∧ "Region" ∈ c.cols then
          .ok (some (create_customer_features c.rows t.rows p.rows))
        else except_diagnostic 3
      else except_diagnostic 2
    else except_diagnostic 1
  else except_diagnostic 0

/-!
`save_recommendations` writes one row per dict entry, the `Recommendations`
field being `';'.join(f"{cid},{score:.4f}" ...)`.  Strings are modelled down
to their character lists; a file is the list of (CustomerID, Recommendations)
rows, the `to_csv`/`read_csv` round trip on such rows being the identity.
Python's `:.4f` rounds to 4 decimal places, ties to even.
-/

/-- The character of a decimal digit. -/
def digitChar (d : Nat) : Char := Char.ofNat (48 + d)

/-- The decimal digit of a character. -/
def charDigit (c : Char) : Nat := c.toNat - 48

/-- Big-endian decimal digits, fuel-driven so that it is structurally
recursive (`natDigitsF f n` is the digits of `n` whenever `n ≤ f`). -/
def natDigitsF : Nat → Nat → List Nat
  | 0, n => [n]
  | f + 1, n => if n < 10 then [n] else natDigitsF f (n / 10) ++ [n % 10]

/-- Big-endian decimal digits of a natural number (`natDigits 0 = [0]`). -/
def natDigits (n : Nat) : List Nat := natDigitsF n n

/-- Value of a big-endian digit list. -/
def digitsVal (l : List Nat) : Nat := l.foldl (fun a d => 10 * a + d) 0

/-- Parse a run of decimal digit characters. -/
def parseNatChars (cs : List Char) : Nat := digitsVal (cs.map charDigit)

/-- Left-pad a digit list with zeros to width `k`. -/
def padTo (k : Nat) (l : List Nat) : List Nat := List.replicate (k - l.length) 0 ++ l

/-- Round half to even, the rounding of Python's fixed-point formatting. -/
def rhe (q : ℚ) : ℤ :=
  let f := ⌊q⌋
  let r := q - f
  if r < 1 / 2 then f else if 1 / 2 < r then f + 1 else if f % 2 = 0 then f else f + 1

/-- A score after the 4-decimal-place round trip. -/
def round4 (q : ℚ) : ℚ := (rhe (q * 10000) : ℚ) / 10000

/-- `f"{q:.4f}"`: optional minus sign, integer digits, dot, exactly four
fractional digits. -/
def formatScore4 (q : ℚ) : List Char :=
  let m : Nat := (rhe (q * 10000)).natAbs
  (if q < 0 then ['-'] else []) ++ (natDigits (m / 10000)).map digitChar
    ++ '.' :: (padTo 4 (natDigits (m % 10000))).map digitChar

/-- `str.split(c)`. -/
def splitChar (c : Char) : List Char → List (List Char)
  | [] => [[]]
  | x :: xs =>
    match splitChar c xs with
    | [] => [[]]
    | h :: t => if x = c then [] :: h :: t else (x :: h) :: t

/-- `sep.join(parts)`. -/
def joinSep (sep : List Char) : List (List Char) → List Char
  | [] => []
  | [p] => p
  | p :: ps => p ++ sep ++ joinSep sep ps

/-- `f"{cid},{score:.4f}"`. -/
def encodePair (p : String × ℚ) : List Char := p.1.data ++ ',' :: formatScore4 p.2

/-- `';'.join([f"{cid},{score:.4f}" for cid, score in recs])`. -/
def rec_str (recs : List (String × ℚ)) : List Char := joinSep [';'] (recs.map encodePair)

/-- `save_recommendations` from the lookalike notebook: the rows
(CustomerID, Recommendations) of the exported `Lookalike.csv`. -/
def save_recommendations (m : List (String × List (String × ℚ))) :
    List (String × String) :=
  m.map fun e => (e.1, String.mk (rec_str e.2))

/-- Modelled from the spec: the repository contains no reader for
`Lookalike.csv`, so the reload step of the spec's round-trip property is the
decimal parser the spec's encoding description dictates.  Parse an unsigned
or `-`-signed fixed-point numeral. -/
def parseScore4Body (bs : List Char) : ℚ :=
  match splitChar '.' bs with
  | [a, b] => (parseNatChars a : ℚ) + (parseNatChars b : ℚ) / 10 ^ b.length
  | _ => (parseNatChars bs : ℚ)

/-- Modelled from the spec: a signed fixed-point numeral parses as its body
negated when a minus sign leads. -/
def parseScore4 (cs : List Char) : ℚ :=
  if cs.headD ' ' = '-' then -(parseScore4Body cs.tail) else parseScore4Body cs

/-- Modelled from the spec: split one `cid,score` pair on the comma. -/
def parsePair (cs : List Char) : String × ℚ :=
  match splitChar ',' cs with
  | a :: b :: _ => (String.mk a, parseScore4 b)
  | [a] => (String.mk a, 0)
  | [] => ("", 0)

/-- Modelled from the spec: split a Recommendations field on semicolons into
up-to-3 pairs; an empty field holds no pairs. -/
def parseRecs (s : List Char) : List (String × ℚ) :=
  if s.isEmpty then [] else (splitChar ';' s).map parsePair

/-- Modelled from the spec: reload the saved rows into the
(customer id → [(neighbor, score)]) mapping. -/
def load_recommendations (rows : List (String × String)) :
    List (String × List (String × ℚ)) :=
  rows.map fun r => (r.1, parseRecs r.2.data)

/-! Helper lemmas about sorted keys and left joins. -/

theorem sortKeys_perm (l : List String) : List.Perm (sortKeys l) l.dedup :=
  List.perm_insertionSort _ _

theorem mem_sortKeys {x : String} {l : List String} : x ∈ sortKeys l ↔ x ∈ l :=
  ((sortKeys_perm l).mem_iff).trans (List.mem_dedup)

theorem sortKeys_nodup (l : List String) : (sortKeys l).Nodup :=
  ((sortKeys_perm l).nodup_iff).mpr l.nodup_dedup

theorem filter_key_eq_nil {β : Type} {right : List (String × β)} {k : String}
    (h : k ∉ right.map Prod.fst) : right.filter (fun r => r.1 = k) = [] := by
  rw [List.filter_eq_nil_iff]
  intro a ha
  simp only [decide_eq_true_eq]
  intro e
  exact h (List.mem_map.mpr ⟨a, ha, e⟩)

theorem filter_key_len_le_one {β : Type} (right : List (String × β))
    (h : (right.map Prod.fst).Nodup) (k : String) :
    (right.filter (fun r => r.1 = k)).length ≤ 1 := by
  induction right with
  | nil => simp
  | cons a rest ih =>
    simp only [List.map_cons, List.nodup_cons] at h
    rw [List.filter_cons]
    by_cases e : a.1 = k
    · have : rest.filter (fun r => r.1 = k) = [] := by
        refine filter_key_eq_nil ?_
        rw [← e]; exact h.1
      simp [e, this]
    · simpa [e] using ih h.2

theorem ljoin_map_fst {α β : Type} (left : List α) (key : α → String)
    (right : List (String × β))
    (h : ∀ k, (right.filter (fun r => r.1 = k)).length ≤ 1) :
    (ljoin left key right).map Prod.fst = left := by
  induction left with
  | nil => rfl
  | cons l ls ih =>
    rw [ljoin, List.flatMap_cons, List.map_append]
    rw [ljoin] at ih
    rw [ih]
    cases hf : right.filter (fun r => r.1 = key l) with
    | nil => simp [hf]
    | cons m ms =>
      have := h (key l)
      rw [hf] at this
      have hms : ms = [] := by
        cases ms with
        | nil => rfl
        | cons _ _ => simp at this
      subst hms
      simp [hf]

theorem ljoin_mem {α β : Type} {left : List α} {key : α → String}
    {right : List (String × β)} {l : α} {ob : Option β}
    (h : (l, ob) ∈ ljoin left key right) :
    l ∈ left ∧ ((∃ b, ob = some b ∧ (key l, b) ∈ right) ∨
      (ob = none ∧ key l ∉ right.map Prod.fst)) := by
  rw [ljoin, List.mem_flatMap] at h
  obtain ⟨l', hl', hmem⟩ := h
  cases hf : right.filter (fun r => r.1 = key l') with
  | nil =>
    rw [hf] at hmem
    simp only [List.mem_singleton, Prod.mk.injEq] at hmem
    obtain ⟨rfl, rfl⟩ := hmem
    refine ⟨hl', Or.inr ⟨rfl, ?_⟩⟩
    intro hk
    obtain ⟨p, hp, he⟩ := List.mem_map.mp hk
    have : p ∈ right.filter (fun r => r.1 = key l) :=
      List.mem_filter.mpr ⟨hp, by simp [he]⟩
    rw [hf] at this
    exact absurd this (List.not_mem_nil p)
  | cons m ms =>
    rw [hf] at hmem
    obtain ⟨m', hm', he⟩ := List.mem_map.mp hmem
    cases he
    have hm'f : m' ∈ right.filter (fun r => r.1 = key l) := by
      rw [hf]; exact hm'
    have hm'r := List.mem_filter.mp hm'f
    have hkey : m'.1 = key l := by simpa using hm'r.2
    exact ⟨hl', Or.inl ⟨m'.2, rfl, by rw [← hkey]; exact hm'r.1⟩⟩

/-- Claim C9: the two notebooks define `create_customer_features` by the same
source text, so the Similarity Engine and the Clustering Engine consume the
same feature definition: on every input triple the two functions agree. -/
theorem create_customer_features_agree :
    ∀ (customers : List Customer) (transactions : List Transaction)
      (products : List Product),
      create_customer_features_lookalike customers transactions products =
        create_customer_features customers transactions products :=
  fun _ _ _ => rfl

/-- Claim C4: on a transactions file lacking the `TotalValue` column the
very first aggregation raises `KeyError`, the `except` handler's diagnostic
print then touches the never-assigned local `purchase_stats`, and the
resulting `UnboundLocalError` escapes to the caller: the function neither
returns `None` nor finishes its diagnostic, contradicting the claimed
catch-print-return-null policy. -/
theorem create_customer_features_raw_escapes :
    create_customer_features_raw
      ⟨["CustomerID", "Region", "SignupDate"], []⟩
      ⟨["TransactionID", "CustomerID", "ProductID", "Quantity", "TransactionDate"], []⟩
      ⟨["ProductID", "ProductName", "Category", "Price"], []⟩ =
      .error (.unboundLocal "purchase_stats") := by
  rfl

/-! Helper lemmas about the feature-builder pieces. -/

theorem foldl_max_init_le (l : List Int) (b : Int) : b ≤ l.foldl max b := by
  induction l generalizing b with
  | nil => exact le_refl b
  | cons y ys ih => exact le_trans (le_max_left b y) (ih (max b y))

theorem le_foldl_max {l : List Int} {x : Int} (b : Int) (h : x ∈ l) :
    x ≤ l.foldl max b := by
  induction l generalizing b with
  | nil => cases h
  | cons y ys ih =>
    rcases List.mem_cons.mp h with rfl | hx
    · exact le_trans (le_max_right b x) (foldl_max_init_le ys (max b x))
    · exact ih (max b y) hx

theorem le_listMax {l : List Int} {x : Int} (h : x ∈ l) : x ≤ listMax l := by
  cases l with
  | nil => cases h
  | cons y ys =>
    rcases List.mem_cons.mp h with rfl | hx
    · exact foldl_max_init_le ys x
    · exact le_foldl_max y hx

theorem foldl_max_mem (l : List Int) (b : Int) : l.foldl max b = b ∨ l.foldl max b ∈ l := by
  induction l generalizing b with
  | nil => exact Or.inl rfl
  | cons y ys ih =>
    rcases ih (max b y) with he | hm
    · rcases max_choice b y with hb | hy
      · exact Or.inl (by rw [List.foldl_cons, he, hb])
      · exact Or.inr (by rw [List.foldl_cons, he, hy]; exact List.mem_cons_self y ys)
    · exact Or.inr (List.mem_cons_of_mem y hm)

theorem listMax_mem {l : List Int} (h : l ≠ []) : listMax l ∈ l := by
  cases l with
  | nil => exact absurd rfl h
  | cons y ys =>
    rcases foldl_max_mem ys y with he | hm
    · rw [listMax, he]; exact List.mem_cons_self y ys
    · exact List.mem_cons_of_mem y hm

theorem mem_groupKeys {ts : List Transaction} {c : String} :
    c ∈ groupKeys ts ↔ ∃ t ∈ ts, t.CustomerID = c := by
  rw [groupKeys, mem_sortKeys, List.mem_map]

theorem purchase_stats_mem {ts : List Transaction} {s : PurchaseStat}
    (h : s ∈ purchase_stats ts) : s.CustomerID ∈ groupKeys ts := by
  obtain ⟨c, hc, rfl⟩ := List.mem_map.mp h
  exact hc

theorem recencyTable_mem {ts : List Transaction} {c : String} {r : Int}
    (h : (c, r) ∈ recencyTable ts) : r = latestDate ts - custLatest ts c := by
  obtain ⟨c', hc', he⟩ := List.mem_map.mp h
  cases he
  rfl

theorem recencyTable_keys (ts : List Transaction) :
    (recencyTable ts).map Prod.fst = groupKeys ts := by
  simp [recencyTable, List.map_map, Function.comp_def]

theorem category_pivoted_keys (pc : List (String × String)) :
    (category_pivoted pc).map Prod.fst = sortKeys (pc.map (·.1)) := by
  simp [category_pivoted, List.map_map, Function.comp_def]

theorem region_dummies_keys (cs : List Customer) :
    (region_dummies cs).map Prod.fst = cs.map (·.CustomerID) := by
  simp [region_dummies, List.map_map, Function.comp_def]

theorem category_pivoted_mem {pc : List (String × String)} {c : String}
    {b : List (String × ℚ)} (h : (c, b) ∈ category_pivoted pc) :
    b = (categoriesOf pc).map fun cat =>
      (cat, (((pc.filter fun r => r.1 = c).filter fun r => r.2 = cat).length : ℚ) /
        ((pc.filter fun r => r.1 = c).length : ℚ)) := by
  obtain ⟨c', hc', he⟩ := List.mem_map.mp h
  cases he
  rfl

theorem region_dummies_mem {cs : List Customer} {c : String}
    {b : List (String × ℚ)} (h : (c, b) ∈ region_dummies cs) :
    ∃ cust ∈ cs, cust.CustomerID = c ∧
      b = (regionsOf cs).map fun r => (r, if cust.Region = r then (1 : ℚ) else 0) := by
  obtain ⟨cust, hcust, he⟩ := List.mem_map.mp h
  cases he
  exact ⟨cust, hcust, rfl, rfl⟩

/-- Decomposition of an output row of `create_customer_features` into its
purchase-stat row and the three join results. -/
theorem create_customer_features_mem {customers : List Customer}
    {ts : List Transaction} {prods : List Product} {row : FeatureRow}
    (h : row ∈ create_customer_features customers ts prods) :
    ∃ (s : PurchaseStat) (cpo : Option (List (String × ℚ))) (rco : Option Int)
      (rdo : Option (List (String × ℚ))),
      s ∈ purchase_stats ts ∧
      row = fillRow (categoriesOf (product_categories ts prods))
        (regionsOf customers) (((s, cpo), rco), rdo) ∧
      ((∃ b, cpo = some b ∧
          (s.CustomerID, b) ∈ category_pivoted (product_categories ts prods)) ∨
        (cpo = none ∧ s.CustomerID ∉
          (category_pivoted (product_categories ts prods)).map Prod.fst)) ∧
      ((∃ b, rco = some b ∧ (s.CustomerID, b) ∈ recencyTable ts) ∨
        (rco = none ∧ s.CustomerID ∉ (recencyTable ts).map Prod.fst)) ∧
      ((∃ b, rdo = some b ∧ (s.CustomerID, b) ∈ region_dummies customers) ∨
        (rdo = none ∧ s.CustomerID ∉ (region_dummies customers).map Prod.fst)) := by
  rw [create_customer_features] at h
  obtain ⟨x, hx, hrow⟩ := List.mem_map.mp h
  obtain ⟨⟨⟨s, cpo⟩, rco⟩, rdo⟩ := x
  have h3 := ljoin_mem hx
  have h2 := ljoin_mem h3.1
  have h1 := ljoin_mem h2.1
  exact ⟨s, cpo, rco, rdo, h1.1, hrow.symm, h1.2, h2.2, h3.2⟩

/-- Concrete sample customers table used by the witnesses. -/
def cs0 : List Customer := [⟨"C1", "Asia", 0⟩]

/-- Concrete sample transactions table used by the witnesses. -/
def ts0 : List Transaction := [⟨"T1", "C1", "P1", 2, 20, 5⟩]

/-- Concrete sample products table used by the witnesses. -/
def ps0 : List Product := [⟨"P1", "Novel", "Books", 10⟩]

/-- The feature row `create_customer_features cs0 ts0 ps0` produces. -/
def row0 : FeatureRow := ⟨"C1", 20, 20, 1, 2, 2, [("Books", 1)], 0, [("Asia", 1)]⟩

/-- Claim C3: every feature row belongs to a customer with at least one
transaction, and its recency is the global maximum transaction date minus the
customer's own maximum transaction date in whole days; recency is therefore
nonnegative, and zero exactly when the customer's latest transaction falls on
the globally latest date. -/
theorem recency_spec :
    ∀ (customers : List Customer) (ts : List Transaction) (prods : List Product)
      (row : FeatureRow), row ∈ create_customer_features customers ts prods →
      row.recency = ((latestDate ts - custLatest ts row.CustomerID : ℤ) : ℚ) ∧
      0 ≤ row.recency ∧
      (row.recency = 0 ↔ custLatest ts row.CustomerID = latestDate ts) := by
  intro customers ts prods row h
  obtain ⟨s, cpo, rco, rdo, hs, hrow, _, hrc, _⟩ := create_customer_features_mem h
  have hkey : s.CustomerID ∈ groupKeys ts := purchase_stats_mem hs
  rcases hrc with ⟨b, rfl, hb⟩ | ⟨rfl, hnot⟩
  · have hbval := recencyTable_mem hb
    have hle : custLatest ts s.CustomerID ≤ latestDate ts := by
      obtain ⟨t0, ht0, hct⟩ := mem_groupKeys.mp hkey
      have ht0f : t0 ∈ ts.filter fun t => t.CustomerID = s.CustomerID :=
        List.mem_filter.mpr ⟨ht0, by simp [hct]⟩
      have hne : (ts.filter fun t => t.CustomerID = s.CustomerID).map
          (·.TransactionDate) ≠ [] := by
        intro hnil
        rw [List.map_eq_nil_iff] at hnil
        rw [hnil] at ht0f
        exact absurd ht0f (List.not_mem_nil t0)
      have hmm := listMax_mem hne
      obtain ⟨t1, ht1, he1⟩ := List.mem_map.mp hmm
      have ht1ts : t1 ∈ ts := (List.mem_filter.mp ht1).1
      have : t1.TransactionDate ≤ latestDate ts :=
        le_listMax (List.mem_map.mpr ⟨t1, ht1ts, rfl⟩)
      rw [custLatest, ← he1]
      exact this
    subst hbval
    subst hrow
    have hid : (fillRow (categoriesOf (product_categories ts prods))
        (regionsOf customers)
        (((s, cpo), some (latestDate ts - custLatest ts s.CustomerID)), rdo)).CustomerID =
        s.CustomerID := rfl
    rw [hid]
    have hrec : (fillRow (categoriesOf (product_categories ts prods))
        (regionsOf customers)
        (((s, cpo), some (latestDate ts - custLatest ts s.CustomerID)), rdo)).recency =
        ((latestDate ts - custLatest ts s.CustomerID : ℤ) : ℚ) := rfl
    rw [hrec]
    refine ⟨rfl, ?_, ?_⟩
    · have : (0 : ℤ) ≤ latestDate ts - custLatest ts s.CustomerID := by omega
      exact_mod_cast this
    · rw [show ((latestDate ts - custLatest ts s.CustomerID : ℤ) : ℚ) = 0 ↔
          (latestDate ts - custLatest ts s.CustomerID : ℤ) = 0 from Int.cast_eq_zero]
      omega
  · exfalso
    apply hnot
    rw [recencyTable_keys]
    exact hkey

unseal Rat.add Rat.mul Rat.inv Rat.sub in
/-- Witness for C3 at the sample tables: the sample row is an output row and
satisfies the recency specification. -/
theorem recency_spec_witness :
    row0 ∈ create_customer_features cs0 ts0 ps0 ∧
      (row0.recency = ((latestDate ts0 - custLatest ts0 row0.CustomerID : ℤ) : ℚ) ∧
        0 ≤ row0.recency ∧
        (row0.recency = 0 ↔ custLatest ts0 row0.CustomerID = latestDate ts0)) :=
  ⟨by decide, recency_spec cs0 ts0 ps0 row0 (by decide)⟩

theorem purchase_stats_map_id (ts : List Transaction) :
    (purchase_stats ts).map PurchaseStat.CustomerID = groupKeys ts := by
  rw [purchase_stats, List.map_map]
  simp [Function.comp_def]

/-- Claim C7: when the customer table's identifiers are unique (the data
model's declared key constraint), the feature table has exactly one row per
customer identifier appearing in the transactions table, and no row for any
other identifier — in particular none for customers with zero transactions. -/
theorem one_row_per_transacting_customer :
    ∀ (customers : List Customer) (ts : List Transaction) (prods : List Product)
      (id : String), (customers.map (·.CustomerID)).Nodup →
      ((create_customer_features customers ts prods).map (·.CustomerID)).count id =
        if id ∈ ts.map (·.CustomerID) then 1 else 0 := by
  intro customers ts prods id hnd
  have hcp : ∀ k, ((category_pivoted (product_categories ts prods)).filter
      fun r => r.1 = k).length ≤ 1 := fun k =>
    filter_key_len_le_one _ (by rw [category_pivoted_keys]; exact sortKeys_nodup _) k
  have hrc : ∀ k, ((recencyTable ts).filter fun r => r.1 = k).length ≤ 1 := fun k =>
    filter_key_len_le_one _ (by rw [recencyTable_keys]; exact sortKeys_nodup _) k
  have hrd : ∀ k, ((region_dummies customers).filter fun r => r.1 = k).length ≤ 1 :=
    fun k => filter_key_len_le_one _ (by rw [region_dummies_keys]; exact hnd) k
  have hunfold : create_customer_features customers ts prods =
      (ljoin (ljoin (ljoin (purchase_stats ts) (·.CustomerID)
            (category_pivoted (product_categories ts prods)))
          (fun x => x.1.CustomerID) (recencyTable ts))
        (fun x => x.1.1.CustomerID) (region_dummies customers)).map
        (fillRow (categoriesOf (product_categories ts prods)) (regionsOf customers)) := rfl
  have h3 := ljoin_map_fst (ljoin (ljoin (purchase_stats ts) (·.CustomerID)
      (category_pivoted (product_categories ts prods)))
      (fun x => x.1.CustomerID) (recencyTable ts))
    (fun x => x.1.1.CustomerID) (region_dummies customers) hrd
  have h2 := ljoin_map_fst (ljoin (purchase_stats ts) (·.CustomerID)
      (category_pivoted (product_categories ts prods)))
    (fun x => x.1.CustomerID) (recencyTable ts) hrc
  have h1 := ljoin_map_fst (purchase_stats ts) (·.CustomerID)
    (category_pivoted (product_categories ts prods)) hcp
  have hmap : (create_customer_features customers ts prods).map (·.CustomerID) =
      groupKeys ts := by
    rw [hunfold, List.map_map]
    have e3 : ((fun r : FeatureRow => r.CustomerID) ∘
        fillRow (categoriesOf (product_categories ts prods)) (regionsOf customers)) =
        (fun y : (PurchaseStat × Option (List (String × ℚ))) × Option Int =>
          y.1.1.CustomerID) ∘ Prod.fst := rfl
    rw [e3, ← List.map_map, h3]
    have e2 : (fun y : (PurchaseStat × Option (List (String × ℚ))) × Option Int =>
        y.1.1.CustomerID) =
        (fun z : PurchaseStat × Option (List (String × ℚ)) => z.1.CustomerID) ∘
          Prod.fst := rfl
    rw [e2, ← List.map_map, h2]
    have e1 : (fun z : PurchaseStat × Option (List (String × ℚ)) => z.1.CustomerID) =
        PurchaseStat.CustomerID ∘ Prod.fst := rfl
    rw [e1, ← List.map_map, h1]
    exact purchase_stats_map_id ts
  rw [hmap]
  by_cases hmem : id ∈ ts.map (·.CustomerID)
  · rw [if_pos hmem]
    refine List.count_eq_one_of_mem (sortKeys_nodup _) ?_
    exact mem_sortKeys.mpr hmem
  · rw [if_neg hmem]
    refine List.count_eq_zero.mpr ?_
    intro hin
    exact hmem (mem_sortKeys.mp hin)

unseal Rat.add Rat.mul Rat.inv Rat.sub in
/-- Witness for C7 at the sample tables: `cs0` has unique identifiers and the
transacting customer `C1` gets exactly one feature row. -/
theorem one_row_per_transacting_customer_witness :
    (cs0.map (·.CustomerID)).Nodup ∧
      ((create_customer_features cs0 ts0 ps0).map (·.CustomerID)).count "C1" =
        if "C1" ∈ ts0.map (·.CustomerID) then 1 else 0 :=
  ⟨by decide, one_row_per_transacting_customer cs0 ts0 ps0 "C1" (by decide)⟩

theorem sum_map_add_nat (l : List String) (f g : String → Nat) :
    (l.map fun x => f x + g x).sum = (l.map f).sum + (l.map g).sum := by
  induction l with
  | nil => rfl
  | cons c cs ih => simp only [List.map_cons, List.sum_cons, ih]; omega

theorem indicator_sum_zero {v : String} {l : List String} (h : v ∉ l) :
    (l.map fun cat => if v = cat then 1 else 0).sum = 0 := by
  induction l with
  | nil => rfl
  | cons c cs ih =>
    have hv : v ≠ c := fun e => h (e ▸ List.mem_cons_self c cs)
    simp only [List.map_cons, List.sum_cons, if_neg hv,
      ih fun hm => h (List.mem_cons_of_mem c hm), Nat.zero_add]

theorem indicator_sum_one {v : String} {l : List String} (hn : l.Nodup)
    (hv : v ∈ l) : (l.map fun cat => if v = cat then 1 else 0).sum = 1 := by
  induction l with
  | nil => cases hv
  | cons c cs ih =>
    rw [List.nodup_cons] at hn
    rcases List.mem_cons.mp hv with rfl | hm
    · simp [indicator_sum_zero hn.1]
    · have hvc : v ≠ c := fun e => hn.1 (e ▸ hm)
      simp [if_neg hvc, ih hn.2 hm]

theorem sum_filter_counts (cats : List String) (mine : List (String × String))
    (hn : cats.Nodup) (hc : ∀ m ∈ mine, m.2 ∈ cats) :
    (cats.map fun cat => (mine.filter fun r => r.2 = cat).length).sum =
      mine.length := by
  induction mine with
  | nil => simp
  | cons m rest ih =>
    have hstep : (fun cat => ((m :: rest).filter fun r => r.2 = cat).length) =
        fun cat => (if m.2 = cat then 1 else 0) +
          (rest.filter fun r => r.2 = cat).length := by
      funext cat
      rw [List.filter_cons]
      by_cases e : m.2 = cat
      · simp [e]
        omega
      · simp [e]
    rw [hstep, sum_map_add_nat, indicator_sum_one hn (hc m (List.mem_cons_self m rest)),
      ih fun x hx => hc x (List.mem_cons_of_mem m hx)]
    simp [Nat.add_comm]

theorem sum_map_div_q (l : List String) (f : String → Nat) (T : ℚ) :
    (l.map fun x => (f x : ℚ) / T).sum = (((l.map f).sum : ℕ) : ℚ) / T := by
  induction l with
  | nil => simp
  | cons c cs ih =>
    simp only [List.map_cons, List.sum_cons, ih, Nat.cast_add, add_div]

/-- Claim C1: in every feature table, every per-category purchase share is
nonnegative, and for every customer with at least one transaction joined to a
product category the shares sum to exactly 1 across the category columns. -/
theorem category_share_spec :
    ∀ (customers : List Customer) (ts : List Transaction) (prods : List Product)
      (row : FeatureRow), row ∈ create_customer_features customers ts prods →
      (∀ p ∈ row.categoryShare, 0 ≤ p.2) ∧
      ((∃ r ∈ product_categories ts prods, r.1 = row.CustomerID) →
        (row.categoryShare.map Prod.snd).sum = 1) := by
  intro customers ts prods row h
  obtain ⟨s, cpo, rco, rdo, hs, hrow, hcp, _, _⟩ := create_customer_features_mem h
  subst hrow
  rcases hcp with ⟨b, rfl, hb⟩ | ⟨rfl, hnot⟩
  · have hbval := category_pivoted_mem hb
    have hshare : (fillRow (categoriesOf (product_categories ts prods))
        (regionsOf customers) (((s, some b), rco), rdo)).categoryShare = b := rfl
    rw [hshare]
    have hkeymem : s.CustomerID ∈ (product_categories ts prods).map Prod.fst := by
      obtain ⟨c', hc', he⟩ := List.mem_map.mp hb
      cases he
      exact mem_sortKeys.mp hc'
    obtain ⟨r0, hr0, hr0id⟩ := List.mem_map.mp hkeymem
    have hmine : r0 ∈ (product_categories ts prods).filter
        fun r => r.1 = s.CustomerID := List.mem_filter.mpr ⟨hr0, by simp [hr0id]⟩
    have hpos : 0 < ((product_categories ts prods).filter
        fun r => r.1 = s.CustomerID).length := List.length_pos.mpr
      fun hnil => by rw [hnil] at hmine; exact absurd hmine (List.not_mem_nil r0)
    have hlen : (((product_categories ts prods).filter
        fun r => r.1 = s.CustomerID).length : ℚ) ≠ 0 :=
      Nat.cast_ne_zero.mpr (Nat.pos_iff_ne_zero.mp hpos)
    constructor
    · intro p hp
      rw [hbval] at hp
      obtain ⟨cat, _, he⟩ := List.mem_map.mp hp
      cases he
      positivity
    · intro _
      rw [hbval, List.map_map]
      have hcomp : (Prod.snd ∘ fun cat =>
          (cat, ((((product_categories ts prods).filter fun r => r.1 = s.CustomerID).filter
            fun r => r.2 = cat).length : ℚ) /
            (((product_categories ts prods).filter fun r => r.1 = s.CustomerID).length : ℚ))) =
          fun cat => ((((product_categories ts prods).filter fun r => r.1 = s.CustomerID).filter
            fun r => r.2 = cat).length : ℚ) /
            (((product_categories ts prods).filter fun r => r.1 = s.CustomerID).length : ℚ) := rfl
      have hnodup : (categoriesOf (product_categories ts prods)).Nodup :=
        sortKeys_nodup _
      rw [hcomp, sum_map_div_q, sum_filter_counts _ _ hnodup ?_, div_self hlen]
      intro m hm
      have hmpc : m ∈ product_categories ts prods := (List.mem_filter.mp hm).1
      exact mem_sortKeys.mpr (List.mem_map.mpr ⟨m, hmpc, rfl⟩)
  · constructor
    · intro p hp
      have hshare : (fillRow (categoriesOf (product_categories ts prods))
          (regionsOf customers) (((s, none), rco), rdo)).categoryShare =
          (categoriesOf (product_categories ts prods)).map fun cat => (cat, 0) := rfl
      rw [hshare] at hp
      obtain ⟨cat, _, he⟩ := List.mem_map.mp hp
      cases he
      exact le_refl 0
    · intro ⟨r, hr, hrid⟩
      exfalso
      apply hnot
      rw [category_pivoted_keys]
      exact mem_sortKeys.mpr (List.mem_map.mpr ⟨r, hr, hrid⟩)

unseal Rat.add Rat.mul Rat.inv Rat.sub in
/-- Witness for C1 at the sample tables: the sample row is an output row, it
has a joined transaction, its shares are nonnegative and sum to 1. -/
theorem category_share_spec_witness :
    row0 ∈ create_customer_features cs0 ts0 ps0 ∧
      ((∀ p ∈ row0.categoryShare, 0 ≤ p.2) ∧
        ((∃ r ∈ product_categories ts0 ps0, r.1 = row0.CustomerID) →
          (row0.categoryShare.map Prod.snd).sum = 1)) :=
  ⟨by decide, category_share_spec cs0 ts0 ps0 row0 (by decide)⟩

/-! Helper lemmas about the similarity engine. -/

instance (s : List ℚ) : IsTotal Nat (lexLt s) where
  total i j := by
    unfold lexLt
    rcases lt_trichotomy (s.getD i 0) (s.getD j 0) with h | h | h
    · exact Or.inl (Or.inl h)
    · rcases Nat.le_total i j with hij | hij
      · exact Or.inl (Or.inr ⟨h, hij⟩)
      · exact Or.inr (Or.inr ⟨h.symm, hij⟩)
    · exact Or.inr (Or.inl h)

instance (s : List ℚ) : IsTrans Nat (lexLt s) where
  trans i j k hij hjk := by
    unfold lexLt at hij hjk ⊢
    rcases hij with h1 | ⟨e1, l1⟩
    · rcases hjk with h2 | ⟨e2, l2⟩
      · exact Or.inl (h1.trans h2)
      · exact Or.inl (lt_of_lt_of_le h1 (le_of_eq e2))
    · rcases hjk with h2 | ⟨e2, l2⟩
      · exact Or.inl (lt_of_le_of_lt (le_of_eq e1) h2)
      · exact Or.inr ⟨e1.trans e2, l1.trans l2⟩

theorem argsort_perm (s : List ℚ) :
    List.Perm (argsort s) (List.range s.length) :=
  List.perm_insertionSort _ _

theorem argsort_nodup (s : List ℚ) : (argsort s).Nodup :=
  ((argsort_perm s).nodup_iff).mpr (List.nodup_range _)

theorem argsort_sorted (s : List ℚ) : List.Sorted (lexLt s) (argsort s) :=
  List.sorted_insertionSort _ _

theorem argsort_mem {s : List ℚ} {i : Nat} : i ∈ argsort s ↔ i < s.length := by
  rw [(argsort_perm s).mem_iff, List.mem_range]

theorem argsort_length (s : List ℚ) : (argsort s).length = s.length := by
  rw [(argsort_perm s).length_eq, List.length_range]

theorem similar_indices_sublist (s : List ℚ) :
    List.Sublist (((argsort s).drop (s.length - 4)).dropLast) (argsort s) :=
  (List.dropLast_sublist _).trans (List.drop_sublist _ _)

theorem similar_indices_nodup (s : List ℚ) : (similar_indices s).Nodup := by
  rw [similar_indices, List.nodup_reverse]
  exact (similar_indices_sublist s).nodup (argsort_nodup s)

theorem similar_indices_mem {s : List ℚ} {j : Nat} (h : j ∈ similar_indices s) :
    j < s.length := by
  rw [similar_indices, List.mem_reverse] at h
  exact argsort_mem.mp ((similar_indices_sublist s).subset h)

theorem customer_indices_some_iff {ids : List String} {t : String} :
    (∃ i, customer_indices ids t = some i) ↔ t ∈ ids := by
  induction ids with
  | nil => simp [customer_indices]
  | cons x xs ih =>
    cases h : customer_indices xs t with
    | some i =>
      have hx : t ∈ xs := ih.mp ⟨i, h⟩
      simp [customer_indices, h, List.mem_cons, hx]
    | none =>
      have hx : t ∉ xs := fun hm => by
        obtain ⟨i, hi⟩ := ih.mpr hm
        rw [h] at hi
        cases hi
      by_cases e : x = t
      · simp [customer_indices, h, e]
      · simp [customer_indices, h, e, List.mem_cons, hx, Ne.symm e]

theorem customer_indices_spec {ids : List String} {t : String} {i : Nat}
    (h : customer_indices ids t = some i) :
    i < ids.length ∧ ids.getD i "" = t := by
  induction ids generalizing i with
  | nil => cases h
  | cons x xs ih =>
    cases hx : customer_indices xs t with
    | some j =>
      rw [customer_indices, hx] at h
      cases h
      obtain ⟨hlt, hget⟩ := ih hx
      exact ⟨Nat.succ_lt_succ hlt, hget⟩
    | none =>
      rw [customer_indices, hx] at h
      by_cases e : x = t
      · rw [if_pos e] at h
        cases h
        exact ⟨Nat.succ_pos _, e⟩
      · rw [if_neg e] at h
        cases h

theorem dictInsert_mem {β : Type} {m : List (String × β)} {k k' : String}
    {v v' : β} (h : (k, v) ∈ dictInsert m k' v') :
    (k = k' ∧ v = v') ∨ (k, v) ∈ m := by
  unfold dictInsert at h
  split at h
  · obtain ⟨p, hp, he⟩ := List.mem_map.mp h
    by_cases e : p.1 = k'
    · rw [if_pos e] at he
      cases he
      exact Or.inl ⟨rfl, rfl⟩
    · rw [if_neg e] at he
      rw [← he]
      exact Or.inr hp
  · rcases List.mem_append.mp h with hm | hm
    · exact Or.inr hm
    · rw [List.mem_singleton] at hm
      cases hm
      exact Or.inl ⟨rfl, rfl⟩

theorem dictInsert_self_mem {β : Type} (m : List (String × β)) (k : String)
    (v : β) : ∃ w, (k, w) ∈ dictInsert m k v := by
  unfold dictInsert
  split
  · next hany =>
    obtain ⟨p, hp, hpe⟩ := List.any_eq_true.mp hany
    refine ⟨v, List.mem_map.mpr ⟨p, hp, ?_⟩⟩
    rw [if_pos (of_decide_eq_true hpe)]
  · exact ⟨v, List.mem_append.mpr (Or.inr (List.mem_singleton.mpr rfl))⟩

theorem dictInsert_preserves {β : Type} {m : List (String × β)} {k : String}
    (h : ∃ w, (k, w) ∈ m) (k' : String) (v' : β) :
    ∃ w, (k, w) ∈ dictInsert m k' v' := by
  obtain ⟨w, hw⟩ := h
  unfold dictInsert
  split
  · by_cases e : k = k'
    · exact ⟨v', List.mem_map.mpr ⟨(k, w), hw, by rw [if_pos e, e]⟩⟩
    · exact ⟨w, List.mem_map.mpr ⟨(k, w), hw, by rw [if_neg e]⟩⟩
  · exact ⟨w, List.mem_append.mpr (Or.inl hw)⟩

theorem calcSim_fold_mem (ids : List String) (sim : List (List ℚ)) :
    ∀ (ts : List String) (acc : List (String × List (String × ℚ))),
      (∀ p ∈ acc, ∃ i, customer_indices ids p.1 = some i ∧
        p.2 = recsFor ids (sim.getD i [])) →
      ∀ p ∈ ts.foldl (fun recommendations target_id =>
          match customer_indices ids target_id with
          | none => recommendations
          | some target_idx =>
            dictInsert recommendations target_id
              (recsFor ids (sim.getD target_idx []))) acc,
        ∃ i, customer_indices ids p.1 = some i ∧
          p.2 = recsFor ids (sim.getD i []) := by
  intro ts
  induction ts with
  | nil => intro acc hacc p hp; exact hacc p hp
  | cons u rest ih =>
    intro acc hacc p hp
    rw [List.foldl_cons] at hp
    refine ih _ ?_ p hp
    cases hu : customer_indices ids u with
    | none => exact fun q hq => hacc q hq
    | some idx =>
      rintro ⟨qk, qv⟩ hq
      rcases dictInsert_mem hq with ⟨h1, h2⟩ | hm
      · exact ⟨idx, by rw [h1, hu], h2⟩
      · exact hacc (qk, qv) hm

/-- Every entry of `calculate_similarity`'s output dict is the recommendation
list computed by `similar_indices` at the key's own row index. -/
theorem calculate_similarity_mem {ids : List String} {sim : List (List ℚ)}
    {targets : List String} {k : String} {v : List (String × ℚ)}
    (h : (k, v) ∈ calculate_similarity ids sim targets) :
    ∃ i, customer_indices ids k = some i ∧ v = recsFor ids (sim.getD i []) := by
  rw [calculate_similarity] at h
  exact calcSim_fold_mem ids sim targets []
    (fun p hp => absurd hp (List.not_mem_nil p)) (k, v) h

/-- Claim C10: every returned neighbor list is built by mapping over the
pairwise-distinct row indices `similar_indices` selects — a sublist of the
argsort permutation — so no feature-table row is used twice in one list. -/
theorem neighbor_rows_distinct :
    ∀ (ids : List String) (sim : List (List ℚ)) (targets : List String)
      (k : String) (v : List (String × ℚ)),
      (k, v) ∈ calculate_similarity ids sim targets →
      ∃ i, customer_indices ids k = some i ∧
        (similar_indices (sim.getD i [])).Nodup ∧
        v = recsFor ids (sim.getD i []) := by
  intro ids sim targets k v h
  obtain ⟨i, hi, hv⟩ := calculate_similarity_mem h
  exact ⟨i, hi, similar_indices_nodup _, hv⟩

unseal Rat.add Rat.mul Rat.inv Rat.sub in
/-- Witness for C10: a concrete query whose returned entry comes from the
distinct selected indices. -/
theorem neighbor_rows_distinct_witness :
    ("C1", [("C2", (0 : ℚ))]) ∈ calculate_similarity ["C1", "C2"] [[1, 0], [0, 1]] ["C1"] ∧
      (∃ i, customer_indices ["C1", "C2"] "C1" = some i ∧
        (similar_indices (([[1, 0], [0, 1]] : List (List ℚ)).getD i [])).Nodup ∧
        [("C2", (0 : ℚ))] = recsFor ["C1", "C2"]
          (([[1, 0], [0, 1]] : List (List ℚ)).getD i [])) :=
  ⟨by decide, neighbor_rows_distinct ["C1", "C2"] [[1, 0], [0, 1]] ["C1"]
    "C1" [("C2", 0)] (by decide)⟩

theorem calcSim_fold_keys (ids : List String) (sim : List (List ℚ)) :
    ∀ (ts : List String) (acc : List (String × List (String × ℚ)))
      (p : String × List (String × ℚ)),
      p ∈ ts.foldl (fun recommendations target_id =>
          match customer_indices ids target_id with
          | none => recommendations
          | some target_idx =>
            dictInsert recommendations target_id
              (recsFor ids (sim.getD target_idx []))) acc →
      p ∈ acc ∨ (p.1 ∈ ts ∧ p.1 ∈ ids) := by
  intro ts
  induction ts with
  | nil => intro acc p hp; exact Or.inl hp
  | cons u rest ih =>
    intro acc p hp
    rw [List.foldl_cons] at hp
    rcases ih _ p hp with hstep | ⟨h1, h2⟩
    · cases hu : customer_indices ids u with
      | none =>
        rw [hu] at hstep
        exact Or.inl hstep
      | some idx =>
        rw [hu] at hstep
        obtain ⟨pk, pv⟩ := p
        rcases dictInsert_mem hstep with ⟨h1, h2⟩ | hm
        · refine Or.inr ⟨by rw [h1]; exact List.mem_cons_self u rest, ?_⟩
          rw [h1]
          exact customer_indices_some_iff.mp ⟨idx, hu⟩
        · exact Or.inl hm
    · exact Or.inr ⟨List.mem_cons_of_mem u h1, h2⟩

theorem calcSim_fold_present (ids : List String) (sim : List (List ℚ)) :
    ∀ (ts : List String) (acc : List (String × List (String × ℚ)))
      (t : String),
      ((∃ v, (t, v) ∈ acc) ∨ (t ∈ ts ∧ t ∈ ids)) →
      ∃ v, (t, v) ∈ ts.foldl (fun recommendations target_id =>
          match customer_indices ids target_id with
          | none => recommendations
          | some target_idx =>
            dictInsert recommendations target_id
              (recsFor ids (sim.getD target_idx []))) acc := by
  intro ts
  induction ts with
  | nil =>
    intro acc t h
    rcases h with h | ⟨h1, _⟩
    · exact h
    · cases h1
  | cons u rest ih =>
    intro acc t h
    rw [List.foldl_cons]
    apply ih
    rcases h with ⟨v, hv⟩ | ⟨h1, h2⟩
    · left
      cases hu : customer_indices ids u with
      | none => exact ⟨v, hv⟩
      | some idx => exact dictInsert_preserves ⟨v, hv⟩ u _
    · rcases List.mem_cons.mp h1 with rfl | hrest
      · left
        obtain ⟨idx, hidx⟩ := customer_indices_some_iff.mpr h2
        rw [hidx]
        exact dictInsert_self_mem acc t _
      · exact Or.inr ⟨hrest, h2⟩

/-- Claim C8: the output mapping has an entry for a queried target exactly
when the target id occurs among the feature rows' CustomerID values, and every
key of the mapping is such a target; absent targets are skipped silently. -/
theorem targets_present_iff :
    ∀ (ids : List String) (sim : List (List ℚ)) (targets : List String),
      (∀ t ∈ targets,
        (∃ v, (t, v) ∈ calculate_similarity ids sim targets) ↔ t ∈ ids) ∧
      (∀ p ∈ calculate_similarity ids sim targets, p.1 ∈ targets ∧ p.1 ∈ ids) := by
  intro ids sim targets
  constructor
  · intro t ht
    constructor
    · intro ⟨v, hv⟩
      rw [calculate_similarity] at hv
      rcases calcSim_fold_keys ids sim targets [] (t, v) hv with hnil | ⟨_, h2⟩
      · exact absurd hnil (List.not_mem_nil _)
      · exact h2
    · intro hids
      rw [calculate_similarity]
      exact calcSim_fold_present ids sim targets [] t (Or.inr ⟨ht, hids⟩)
  · intro p hp
    rw [calculate_similarity] at hp
    rcases calcSim_fold_keys ids sim targets [] p hp with hnil | h
    · exact absurd hnil (List.not_mem_nil _)
    · exact h

unseal Rat.add Rat.mul Rat.inv Rat.sub in
/-- Witness for C8: a present target gets an entry, and with a second run the
absent target `C9` yields no key. -/
theorem targets_present_iff_witness :
    ("C1" ∈ (["C1", "C9"] : List String)) ∧
      ((∃ v, ("C1", v) ∈ calculate_similarity ["C1", "C2"] [[1, 0], [0, 1]]
        ["C1", "C9"]) ↔ "C1" ∈ (["C1", "C2"] : List String)) :=
  ⟨by decide, (targets_present_iff ["C1", "C2"] [[1, 0], [0, 1]] ["C1", "C9"]).1
    "C1" (by decide)⟩

/-- When one index strictly dominates a row, it is the last entry of the
ascending argsort of that row. -/
theorem argsort_getLast_of_strict_max {s : List ℚ} {i : Nat} (hi : i < s.length)
    (hmax : ∀ j < s.length, j ≠ i → s.getD j 0 < s.getD i 0) :
    (argsort s).getLast? = some i := by
  have hmem : i ∈ argsort s := argsort_mem.mpr hi
  have hne : argsort s ≠ [] := List.ne_nil_of_mem hmem
  rw [List.getLast?_eq_getLast _ hne]
  by_cases hij : (argsort s).getLast hne = i
  · rw [hij]
  · exfalso
    have hdecomp : (argsort s).dropLast ++ [(argsort s).getLast hne] = argsort s :=
      List.dropLast_concat_getLast hne
    have himem' : i ∈ (argsort s).dropLast := by
      have hm := hmem
      rw [← hdecomp] at hm
      rcases List.mem_append.mp hm with h | h
      · exact h
      · rw [List.mem_singleton] at h
        exact absurd h.symm hij
    have hsorted : List.Pairwise (lexLt s)
        ((argsort s).dropLast ++ [(argsort s).getLast hne]) := by
      rw [hdecomp]
      exact argsort_sorted s
    have hlex : lexLt s i ((argsort s).getLast hne) :=
      (List.pairwise_append.mp hsorted).2.2 i himem' _ (List.mem_singleton.mpr rfl)
    have hjlen : (argsort s).getLast hne < s.length :=
      argsort_mem.mp (List.getLast_mem hne)
    have hlt : s.getD ((argsort s).getLast hne) 0 < s.getD i 0 := hmax _ hjlen hij
    rcases hlex with h | ⟨he, _⟩
    · exact absurd h (not_lt.mpr hlt.le)
    · exact absurd he (ne_of_gt hlt)

/-- No index kept by `similar_indices` is the last entry of the argsort (the
one `[:-1]` drops). -/
theorem similar_indices_ne_argmax {s : List ℚ} {i : Nat}
    (h : (argsort s).getLast? = some i) : ∀ j ∈ similar_indices s, j ≠ i := by
  intro j hj
  have hdecomp : (argsort s).dropLast ++ [i] = argsort s :=
    List.dropLast_append_getLast? i h
  have hne : argsort s ≠ [] := by
    intro he
    rw [he] at h
    cases h
  have hnotin : i ∉ (argsort s).dropLast := by
    have hnd := argsort_nodup s
    rw [← hdecomp] at hnd
    intro hin
    exact (List.nodup_append.mp hnd).2.2 hin (List.mem_singleton.mpr rfl)
  rw [similar_indices, List.mem_reverse] at hj
  have hkle : s.length - 4 ≤ ((argsort s).dropLast).length := by
    rw [List.length_dropLast, argsort_length]
    have : 0 < s.length := by
      rw [← argsort_length s]
      exact List.length_pos.mpr hne
    omega
  have hdropeq : (argsort s).drop (s.length - 4) =
      ((argsort s).dropLast).drop (s.length - 4) ++ [i] := by
    conv_lhs => rw [← hdecomp]
    exact List.drop_append_of_le_length hkle
  rw [hdropeq, List.dropLast_concat] at hj
  have hjdl : j ∈ (argsort s).dropLast :=
    (List.drop_subset _ _) hj
  exact fun e => hnotin (e ▸ hjdl)

/-- Claim C2 counterexample: with two customers whose similarity rows tie
everywhere (e.g. duplicate feature rows), querying `C1` returns a list that
contains `C1` itself: `[-4:][:-1]` drops the highest-scoring index, which
under ties need not be the queried customer's own. -/
theorem self_in_neighbors_counterexample :
    calculate_similarity ["C1", "C2"] [[1, 1], [1, 1]] ["C1"] =
      [("C1", [("C1", 1)])] ∧
      ¬ (∀ p ∈ ((calculate_similarity ["C1", "C2"] [[1, 1], [1, 1]] ["C1"]).headD
          ("", [])).2, p.1 ≠ "C1") := by
  constructor
  · rfl
  · intro h
    exact h ("C1", 1) (by rw [show calculate_similarity ["C1", "C2"] [[1, 1], [1, 1]]
        ["C1"] = [("C1", [("C1", 1)])] from rfl]; exact List.mem_singleton.mpr rfl) rfl

/-- Claim C2 amended: the procedure selects the 4 highest-scoring indices and
drops the single highest-scoring one (the last under the stable ascending
argsort); whenever the queried customer's self-score strictly exceeds every
other score in its row — in particular whenever no other row ties its
self-similarity — the dropped index is the queried customer's own, and the
returned list never contains the queried id. -/
theorem self_excluded_when_strict_max :
    ∀ (ids : List String) (sim : List (List ℚ)) (targets : List String)
      (t : String) (v : List (String × ℚ)) (i : Nat),
      (t, v) ∈ calculate_similarity ids sim targets →
      ids.Nodup →
      customer_indices ids t = some i →
      (sim.getD i []).length = ids.length →
      (∀ j < ids.length, j ≠ i →
        (sim.getD i []).getD j 0 < (sim.getD i []).getD i 0) →
      ∀ p ∈ v, p.1 ≠ t := by
  intro ids sim targets t v i hmem hnd hci hlen hmax p hp
  obtain ⟨i', hi', hv⟩ := calculate_similarity_mem hmem
  rw [hci] at hi'
  cases hi'
  obtain ⟨hilt, hig⟩ := customer_indices_spec hci
  subst hv
  obtain ⟨j, hj, he⟩ := List.mem_map.mp hp
  cases he
  have hjlen : j < (sim.getD i []).length := similar_indices_mem hj
  have hjlen' : j < ids.length := by rwa [hlen] at hjlen
  have hilt' : i < (sim.getD i []).length := by rwa [hlen]
  have hlast := argsort_getLast_of_strict_max hilt' (by
    intro j' hj' hne
    exact hmax j' (by rwa [hlen] at hj') hne)
  have hjni : j ≠ i := similar_indices_ne_argmax hlast j hj
  intro he
  rw [← hig] at he
  rw [List.getD_eq_getElem _ _ hjlen', List.getD_eq_getElem _ _ hilt] at he
  have hinj := List.nodup_iff_injective_get.mp hnd
  have hfin : (⟨j, hjlen'⟩ : Fin ids.length) = ⟨i, hilt⟩ :=
    hinj (by rw [List.get_eq_getElem, List.get_eq_getElem]; exact he)
  exact hjni (congrArg Fin.val hfin)

unseal Rat.add Rat.mul Rat.inv Rat.sub in
/-- Witness for the amended C2: a query whose self-score strictly dominates
its row; the returned list excludes the queried id. -/
theorem self_excluded_when_strict_max_witness :
    (("C1", [("C2", (0 : ℚ))]) ∈
        calculate_similarity ["C1", "C2"] [[1, 0], [0, 1]] ["C1"]) ∧
      ∀ p ∈ [("C2", (0 : ℚ))], p.1 ≠ "C1" :=
  ⟨by decide, self_excluded_when_strict_max ["C1", "C2"] [[1, 0], [0, 1]] ["C1"]
    "C1" [("C2", 0)] 0 (by decide) (by decide) (by decide) (by decide) (by decide)⟩

/-- The indices kept by `similar_indices` are strictly descending in
(score, original index): the reverse of a sublist of the ascending argsort. -/
theorem similar_indices_sorted (s : List ℚ) :
    List.Pairwise (fun a b =>
      s.getD b 0 < s.getD a 0 ∨ (s.getD b 0 = s.getD a 0 ∧ b < a))
      (similar_indices s) := by
  have h3 := (argsort_sorted s).and (argsort_nodup s)
  have h4 : List.Pairwise (fun a b =>
      s.getD a 0 < s.getD b 0 ∨ (s.getD a 0 = s.getD b 0 ∧ a < b)) (argsort s) := by
    refine h3.imp ?_
    rintro a b ⟨hl, hne⟩
    rcases hl with h | ⟨he, hle⟩
    · exact Or.inl h
    · exact Or.inr ⟨he, lt_of_le_of_ne hle hne⟩
  have h5 := h4.sublist (similar_indices_sublist s)
  rw [similar_indices, List.pairwise_reverse]
  exact h5

unseal Rat.add Rat.mul Rat.inv Rat.sub in
/-- Claim C6 counterexample: querying `T` against two neighbors whose scores
tie at 1/2 returns the pair with equal consecutive scores — so the order is
not strictly descending — and the later feature row `C` comes before the
earlier row `B`, the opposite of original row order. -/
theorem descending_ties_counterexample :
    calculate_similarity ["T", "B", "C"]
        [[1, 1/2, 1/2], [1/2, 1, 1/2], [1/2, 1/2, 1]] ["T"] =
      [("T", [("C", 1/2), ("B", 1/2)])] ∧
      ¬ List.Pairwise (fun a b : String × ℚ => b.2 < a.2)
        [("C", (1 : ℚ)/2), ("B", (1 : ℚ)/2)] := by
  decide

/-- Claim C6 amended: each returned neighbor list is ordered by non-increasing
score (not strictly descending: tied scores are possible and stay adjacent),
and under the stable ascending-argsort model ties are broken by *descending*
original row index, the reverse of original row order. -/
theorem neighbors_sorted_by_score :
    ∀ (ids : List String) (sim : List (List ℚ)) (targets : List String)
      (k : String) (v : List (String × ℚ)),
      (k, v) ∈ calculate_similarity ids sim targets →
      List.Pairwise (fun a b => b.2 ≤ a.2) v ∧
      ∃ i, customer_indices ids k = some i ∧
        List.Pairwise (fun a b =>
          (sim.getD i []).getD b 0 < (sim.getD i []).getD a 0 ∨
          ((sim.getD i []).getD b 0 = (sim.getD i []).getD a 0 ∧ b < a))
          (similar_indices (sim.getD i [])) := by
  intro ids sim targets k v h
  obtain ⟨i, hi, hv⟩ := calculate_similarity_mem h
  subst hv
  refine ⟨?_, i, hi, similar_indices_sorted _⟩
  rw [recsFor, List.pairwise_map]
  refine (similar_indices_sorted (sim.getD i [])).imp ?_
  intro a b hab
  rcases hab with h | ⟨he, _⟩
  · exact le_of_lt h
  · exact le_of_eq he

unseal Rat.add Rat.mul Rat.inv Rat.sub in
/-- Witness for the amended C6: a concrete query whose returned list is
non-increasing in score with the index list strictly lex-descending. -/
theorem neighbors_sorted_by_score_witness :
    (("C1", [("C2", (1 : ℚ)/4)]) ∈
        calculate_similarity ["C1", "C2"] [[1, 1/4], [1/4, 1]] ["C1"]) ∧
      (List.Pairwise (fun a b : String × ℚ => b.2 ≤ a.2) [("C2", (1 : ℚ)/4)] ∧
        ∃ i, customer_indices ["C1", "C2"] "C1" = some i ∧
          List.Pairwise (fun a b =>
            (([[1, 1/4], [1/4, 1]] : List (List ℚ)).getD i []).getD b 0 <
              (([[1, 1/4], [1/4, 1]] : List (List ℚ)).getD i []).getD a 0 ∨
            ((([[1, 1/4], [1/4, 1]] : List (List ℚ)).getD i []).getD b 0 =
              (([[1, 1/4], [1/4, 1]] : List (List ℚ)).getD i []).getD a 0 ∧ b < a))
            (similar_indices (([[1, 1/4], [1/4, 1]] : List (List ℚ)).getD i []))) :=
  ⟨by decide, neighbors_sorted_by_score ["C1", "C2"] [[1, 1/4], [1/4, 1]] ["C1"]
    "C1" [("C2", 1/4)] (by decide)⟩

/-! Helper lemmas for the save/reload round trip. -/

theorem natDigitsF_indep : ∀ (f g n : Nat), n ≤ f → n ≤ g →
    natDigitsF f n = natDigitsF g n := by
  intro f
  induction f with
  | zero =>
    intro g n hf hg
    have : n = 0 := Nat.le_zero.mp hf
    subst this
    cases g with
    | zero => rfl
    | succ g' => simp [natDigitsF]
  | succ f' ih =>
    intro g n hf hg
    cases g with
    | zero =>
      have : n = 0 := Nat.le_zero.mp hg
      subst this
      simp [natDigitsF]
    | succ g' =>
      by_cases h : n < 10
      · simp [natDigitsF, h]
      · simp only [natDigitsF, if_neg h]
        rw [ih g' (n / 10) (by omega) (by omega)]

theorem natDigits_eq (n : Nat) :
    natDigits n = if n < 10 then [n] else natDigits (n / 10) ++ [n % 10] := by
  by_cases h : n < 10
  · rw [if_pos h, natDigits]
    cases n with
    | zero => rfl
    | succ m => simp [natDigitsF, h]
  · rw [if_neg h, natDigits, natDigits]
    cases n with
    | zero => omega
    | succ m =>
      simp only [natDigitsF, if_neg h]
      rw [natDigitsF_indep m ((m + 1) / 10) ((m + 1) / 10) (by omega) (le_refl _)]

theorem natDigits_ne_nil (n : Nat) : natDigits n ≠ [] := by
  rw [natDigits_eq]
  split
  · exact List.cons_ne_nil n []
  · intro h
    rcases List.append_eq_nil.mp h with ⟨_, h2⟩
    exact List.cons_ne_nil _ [] h2

theorem natDigits_lt10 : ∀ (n : Nat), ∀ d ∈ natDigits n, d < 10 := by
  intro n
  induction n using Nat.strong_induction_on with
  | _ n ih =>
    rw [natDigits_eq]
    split
    · next h =>
      intro d hd
      rw [List.mem_singleton] at hd
      omega
    · next h =>
      intro d hd
      rcases List.mem_append.mp hd with h1 | h2
      · exact ih (n / 10) (Nat.div_lt_self (by omega) (by omega)) d h1
      · rw [List.mem_singleton] at h2
        subst h2
        exact Nat.mod_lt _ (by omega)

theorem digitsVal_append (l : List Nat) (d : Nat) :
    digitsVal (l ++ [d]) = 10 * digitsVal l + d := by
  rw [digitsVal, digitsVal, List.foldl_append]
  rfl

theorem digitsVal_natDigits : ∀ n : Nat, digitsVal (natDigits n) = n := by
  intro n
  induction n using Nat.strong_induction_on with
  | _ n ih =>
    rw [natDigits_eq]
    split
    · next h => simp [digitsVal]
    · next h =>
      rw [digitsVal_append, ih (n / 10) (Nat.div_lt_self (by omega) (by omega))]
      omega

theorem natDigits_len_le : ∀ (k n : Nat), n < 10 ^ k → 1 ≤ k →
    (natDigits n).length ≤ k := by
  intro k
  induction k with
  | zero => intro n _ h1; omega
  | succ k' ih =>
    intro n hn _
    rw [natDigits_eq]
    split
    · next h => simp
    · next h =>
      rw [List.length_append, List.length_singleton]
      have hk' : 1 ≤ k' := by
        by_contra hk0
        have : k' = 0 := by omega
        subst this
        simp at hn
        omega
      have hdiv : n / 10 < 10 ^ k' := by
        rw [Nat.div_lt_iff_lt_mul (by omega)]
        calc n < 10 ^ (k' + 1) := hn
        _ = 10 ^ k' * 10 := by ring
      have := ih (n / 10) hdiv hk'
      omega

theorem digitsVal_replicate_zero (m : Nat) (l : List Nat) :
    digitsVal (List.replicate m 0 ++ l) = digitsVal l := by
  rw [digitsVal, digitsVal, List.foldl_append]
  have : List.foldl (fun a d => 10 * a + d) 0 (List.replicate m 0) = 0 := by
    induction m with
    | zero => rfl
    | succ m' ih => simpa [List.replicate_succ] using ih
  rw [this]

theorem digitsVal_padTo (k : Nat) (l : List Nat) :
    digitsVal (padTo k l) = digitsVal l :=
  digitsVal_replicate_zero _ _

theorem padTo_length {k : Nat} {l : List Nat} (h : l.length ≤ k) :
    (padTo k l).length = k := by
  rw [padTo, List.length_append, List.length_replicate]
  omega

theorem padTo_lt10 {k : Nat} {l : List Nat} (h : ∀ d ∈ l, d < 10) :
    ∀ d ∈ padTo k l, d < 10 := by
  intro d hd
  rcases List.mem_append.mp hd with h1 | h2
  · rw [List.eq_of_mem_replicate h1]
    omega
  · exact h d h2

theorem charDigit_digitChar {d : Nat} (h : d < 10) :
    charDigit (digitChar d) = d := by
  interval_cases d <;> decide

theorem digitChar_ne {d : Nat} (h : d < 10) :
    digitChar d ≠ ',' ∧ digitChar d ≠ ';' ∧ digitChar d ≠ '.' ∧ digitChar d ≠ '-' := by
  interval_cases d <;> exact ⟨by decide, by decide, by decide, by decide⟩

theorem parseNatChars_map_digitChar {ds : List Nat} (h : ∀ d ∈ ds, d < 10) :
    parseNatChars (ds.map digitChar) = digitsVal ds := by
  rw [parseNatChars, List.map_map]
  congr 1
  rw [Function.comp_def,
    List.map_congr_left fun d hd => charDigit_digitChar (h d hd)]
  exact List.map_id' ds

theorem splitChar_ne_nil (c : Char) (s : List Char) : splitChar c s ≠ [] := by
  induction s with
  | nil => simp [splitChar]
  | cons x xs ih =>
    rw [splitChar]
    cases h : splitChar c xs with
    | nil => simp
    | cons hh tt => by_cases e : x = c <;> simp [e]

theorem splitChar_not_mem {c : Char} {s : List Char} (h : c ∉ s) :
    splitChar c s = [s] := by
  induction s with
  | nil => rfl
  | cons x xs ih =>
    have hx : x ≠ c := fun e => h (e ▸ List.mem_cons_self x xs)
    have hxs : c ∉ xs := fun hm => h (List.mem_cons_of_mem x hm)
    rw [splitChar, ih hxs]
    simp [hx]

theorem splitChar_append {c : Char} {p rest : List Char} (h : c ∉ p) :
    splitChar c (p ++ c :: rest) = p :: splitChar c rest := by
  induction p with
  | nil =>
    rw [List.nil_append, splitChar]
    cases hsp : splitChar c rest with
    | nil => exact absurd hsp (splitChar_ne_nil c rest)
    | cons hh tt => simp
  | cons x p' ih =>
    have hx : x ≠ c := fun e => h (e ▸ List.mem_cons_self x p')
    have hp' : c ∉ p' := fun hm => h (List.mem_cons_of_mem x hm)
    rw [List.cons_append, splitChar, ih hp']
    simp [hx]

theorem joinSep_ne_nil {sep x : List Char} {xs : List (List Char)}
    (h : x ≠ []) : joinSep sep (x :: xs) ≠ [] := by
  cases xs with
  | nil => exact h
  | cons y ys =>
    intro he
    have : joinSep sep (x :: y :: ys) = x ++ sep ++ joinSep sep (y :: ys) := rfl
    rw [this] at he
    rcases List.append_eq_nil.mp he with ⟨h1, _⟩
    exact h (List.append_eq_nil.mp h1).1

theorem splitChar_joinSep (c : Char) :
    ∀ (parts : List (List Char)), parts ≠ [] → (∀ p ∈ parts, c ∉ p) →
      splitChar c (joinSep [c] parts) = parts := by
  intro parts
  induction parts with
  | nil => intro h; exact absurd rfl h
  | cons p ps ih =>
    intro _ hc
    cases ps with
    | nil => exact splitChar_not_mem (hc p (List.mem_cons_self p []))
    | cons q qs =>
      have hjoin : joinSep [c] (p :: q :: qs) = p ++ c :: joinSep [c] (q :: qs) := by
        show p ++ [c] ++ joinSep [c] (q :: qs) = p ++ c :: joinSep [c] (q :: qs)
        rw [List.append_assoc]
        rfl
      rw [hjoin, splitChar_append (hc p (List.mem_cons_self p _)),
        ih (List.cons_ne_nil q qs) fun x hx => hc x (List.mem_cons_of_mem p hx)]

theorem formatScore4_chars (q : ℚ) :
    ∀ ch ∈ formatScore4 q, ch ≠ ',' ∧ ch ≠ ';' := by
  intro ch hch
  rw [formatScore4] at hch
  rcases List.mem_append.mp hch with h1 | h2
  · rcases List.mem_append.mp h1 with ha | hb
    · split at ha
      · rw [List.mem_singleton] at ha
        subst ha
        exact ⟨by decide, by decide⟩
      · exact absurd ha (List.not_mem_nil ch)
    · obtain ⟨d, hd, rfl⟩ := List.mem_map.mp hb
      have := digitChar_ne (natDigits_lt10 _ d hd)
      exact ⟨this.1, this.2.1⟩
  · rcases List.mem_cons.mp h2 with rfl | hm
    · exact ⟨by decide, by decide⟩
    · obtain ⟨d, hd, rfl⟩ := List.mem_map.mp hm
      have := digitChar_ne (padTo_lt10 (natDigits_lt10 _) d hd)
      exact ⟨this.1, this.2.1⟩

theorem rhe_nonneg {q : ℚ} (h : 0 ≤ q) : 0 ≤ rhe q := by
  rw [rhe]
  have hf : 0 ≤ ⌊q⌋ := Int.floor_nonneg.mpr h
  split_ifs <;> omega

theorem rhe_nonpos {q : ℚ} (h : q < 0) : rhe q ≤ 0 := by
  rw [rhe]
  have hf : ⌊q⌋ < 0 := by
    have h1 : (⌊q⌋ : ℚ) ≤ q := Int.floor_le q
    have h2 : (⌊q⌋ : ℚ) < 0 := lt_of_le_of_lt h1 h
    exact_mod_cast h2
  split_ifs <;> omega

theorem parseScore4Body_split {intd fracd : List Char} (h1 : '.' ∉ intd)
    (h2 : '.' ∉ fracd) :
    parseScore4Body (intd ++ '.' :: fracd) =
      (parseNatChars intd : ℚ) + (parseNatChars fracd : ℚ) / 10 ^ fracd.length := by
  rw [parseScore4Body, splitChar_append h1, splitChar_not_mem h2]

theorem dot_not_mem_digitChars (l : List Nat) (h : ∀ d ∈ l, d < 10) :
    '.' ∉ l.map digitChar := by
  intro hm
  obtain ⟨d, hd, he⟩ := List.mem_map.mp hm
  exact (digitChar_ne (h d hd)).2.2.1 he

/-- Parsing the unsigned fixed-point render of `m` scaled by 10^4. -/
theorem parse_unsigned (m : Nat) :
    parseScore4Body ((natDigits (m / 10000)).map digitChar ++
      '.' :: (padTo 4 (natDigits (m % 10000))).map digitChar) = (m : ℚ) / 10000 := by
  have hint : '.' ∉ (natDigits (m / 10000)).map digitChar :=
    dot_not_mem_digitChars _ (natDigits_lt10 _)
  have hfrac : '.' ∉ (padTo 4 (natDigits (m % 10000))).map digitChar :=
    dot_not_mem_digitChars _ (padTo_lt10 (natDigits_lt10 _))
  rw [parseScore4Body_split hint hfrac, parseNatChars_map_digitChar (natDigits_lt10 _),
    parseNatChars_map_digitChar (padTo_lt10 (natDigits_lt10 _)),
    digitsVal_natDigits, digitsVal_padTo, digitsVal_natDigits]
  have hlen : ((padTo 4 (natDigits (m % 10000))).map digitChar).length = 4 := by
    rw [List.length_map]
    exact padTo_length (natDigits_len_le 4 _ (Nat.mod_lt _ (by omega)) (by omega))
  rw [hlen]
  have hkey : (10000 : ℚ) * ((m / 10000 : ℕ) : ℚ) + ((m % 10000 : ℕ) : ℚ) = (m : ℚ) := by
    exact_mod_cast Nat.div_add_mod m 10000
  have h4 : (10 : ℚ) ^ (4 : ℕ) = 10000 := by norm_num
  rw [h4]
  field_simp
  linarith [hkey]

theorem formatScore4_headD_ne (m : Nat) (tail : List Char) :
    ((natDigits (m / 10000)).map digitChar ++ tail).headD ' ' ≠ '-' := by
  cases hd : natDigits (m / 10000) with
  | nil => exact absurd hd (natDigits_ne_nil _)
  | cons d ds =>
    have hd10 : d < 10 := natDigits_lt10 _ d (by rw [hd]; exact List.mem_cons_self d ds)
    simpa using (digitChar_ne hd10).2.2.2

/-- Parsing back a formatted score yields exactly its 4-decimal rounding. -/
theorem parseScore4_formatScore4 (q : ℚ) :
    parseScore4 (formatScore4 q) = round4 q := by
  by_cases hq : q < 0
  · have hn : rhe (q * 10000) ≤ 0 :=
      rhe_nonpos (mul_neg_of_neg_of_pos hq (by norm_num))
    have hmq : (((rhe (q * 10000)).natAbs : ℕ) : ℚ) =
        -((rhe (q * 10000) : ℤ) : ℚ) := by
      rw [Int.cast_natAbs]
      have habs : |rhe (q * 10000)| = -rhe (q * 10000) := abs_of_nonpos hn
      exact_mod_cast habs
    rw [formatScore4, if_pos hq]
    rw [show (['-'] ++ (natDigits ((rhe (q * 10000)).natAbs / 10000)).map digitChar ++
        '.' :: (padTo 4 (natDigits ((rhe (q * 10000)).natAbs % 10000))).map digitChar) =
        '-' :: ((natDigits ((rhe (q * 10000)).natAbs / 10000)).map digitChar ++
        '.' :: (padTo 4 (natDigits ((rhe (q * 10000)).natAbs % 10000))).map digitChar)
      from rfl]
    rw [parseScore4, if_pos (by rfl), List.tail_cons, parse_unsigned, round4, hmq]
    ring
  · have hn : 0 ≤ rhe (q * 10000) :=
      rhe_nonneg (mul_nonneg (not_lt.mp hq) (by norm_num))
    have hmq : (((rhe (q * 10000)).natAbs : ℕ) : ℚ) =
        ((rhe (q * 10000) : ℤ) : ℚ) := by
      rw [Int.cast_natAbs]
      have habs : |rhe (q * 10000)| = rhe (q * 10000) := abs_of_nonneg hn
      exact_mod_cast habs
    rw [formatScore4, if_neg hq, List.nil_append, parseScore4,
      if_neg (formatScore4_headD_ne _ _), parse_unsigned, round4, hmq]

theorem string_mk_data (s : String) : String.mk s.data = s := rfl

theorem parsePair_encodePair {id : String} {q : ℚ} (h1 : ',' ∉ id.data) :
    parsePair (encodePair (id, q)) = (id, round4 q) := by
  have hfmt : ',' ∉ formatScore4 q := fun hm => (formatScore4_chars q ',' hm).1 rfl
  unfold parsePair
  rw [encodePair]
  rw [show (id, q).1.data ++ ',' :: formatScore4 (id, q).2 =
    id.data ++ ',' :: formatScore4 q from rfl]
  rw [splitChar_append h1, splitChar_not_mem hfmt]
  show (String.mk id.data, parseScore4 (formatScore4 q)) = (id, round4 q)
  rw [parseScore4_formatScore4, string_mk_data]

theorem encodePair_ne_nil (p : String × ℚ) : encodePair p ≠ [] := by
  rw [encodePair]
  intro h
  rcases List.append_eq_nil.mp h with ⟨_, h2⟩
  exact List.cons_ne_nil _ _ h2

theorem semicolon_not_mem_encodePair {p : String × ℚ} (h : ';' ∉ p.1.data) :
    ';' ∉ encodePair p := by
  rw [encodePair]
  intro hm
  rcases List.mem_append.mp hm with h1 | h2
  · exact h h1
  · rcases List.mem_cons.mp h2 with he | hf
    · cases he
    · exact (formatScore4_chars p.2 ';' hf).2 rfl

theorem parseRecs_rec_str {recs : List (String × ℚ)}
    (h : ∀ p ∈ recs, ',' ∉ p.1.data ∧ ';' ∉ p.1.data) :
    parseRecs (rec_str recs) = recs.map fun p => (p.1, round4 p.2) := by
  cases recs with
  | nil => rfl
  | cons r rest =>
    have hne : rec_str (r :: rest) ≠ [] := by
      rw [rec_str, List.map_cons]
      exact joinSep_ne_nil (encodePair_ne_nil r)
    rw [parseRecs, if_neg (by simpa using hne)]
    rw [rec_str, splitChar_joinSep ';' _ (by simp) ?_]
    · rw [List.map_map]
      refine List.map_congr_left ?_
      intro p hp
      exact parsePair_encodePair (h p hp).1
    · intro part hpart
      obtain ⟨p, hp, rfl⟩ := List.mem_map.mp hpart
      exact semicolon_not_mem_encodePair (h p hp).2

unseal Rat.add Rat.mul Rat.inv Rat.sub in
/-- Claim C5 counterexample: a mapping produced by `calculate_similarity`
containing the score 1/3 does not survive the 4-decimal export format: the
reloaded mapping holds 0.3333 instead. -/
theorem save_load_roundtrip_counterexample :
    load_recommendations (save_recommendations
        (calculate_similarity ["C1", "C2"] [[1, 1/3], [1/3, 1]] ["C1"])) ≠
      calculate_similarity ["C1", "C2"] [[1, 1/3], [1/3, 1]] ["C1"] := by
  decide

/-- Claim C5 amended: exporting with `save_recommendations` and reloading
reproduces the mapping with every score replaced by its nearest 4-decimal
rounding (ties to even); it reproduces the mapping exactly only when every
score is already a multiple of 1/10000.  Neighbor ids must not contain the
comma or semicolon delimiters (true of all CustomerID values). -/
theorem save_load_roundtrip :
    ∀ (m : List (String × List (String × ℚ))),
      (∀ e ∈ m, ∀ p ∈ e.2, ',' ∉ p.1.data ∧ ';' ∉ p.1.data) →
      load_recommendations (save_recommendations m) =
        m.map fun e => (e.1, e.2.map fun p => (p.1, round4 p.2)) := by
  intro m h
  rw [load_recommendations, save_recommendations, List.map_map]
  refine List.map_congr_left ?_
  intro e he
  show (e.1, parseRecs (String.mk (rec_str e.2)).data) =
    (e.1, e.2.map fun p => (p.1, round4 p.2))
  rw [show (String.mk (rec_str e.2)).data = rec_str e.2 from rfl]
  rw [parseRecs_rec_str fun p hp => h e he p hp]

unseal Rat.add Rat.mul Rat.inv Rat.sub in
/-- Witness for the amended C5: a concrete mapping whose score is a multiple
of 1/10000 round-trips to its (identical) rounding. -/
theorem save_load_roundtrip_witness :
    (∀ e ∈ ([("C1", [("C2", (9876 : ℚ)/10000)])] :
        List (String × List (String × ℚ))),
      ∀ p ∈ e.2, ',' ∉ p.1.data ∧ ';' ∉ p.1.data) ∧
      load_recommendations (save_recommendations
          [("C1", [("C2", (9876 : ℚ)/10000)])]) =
        ([("C1", [("C2", (9876 : ℚ)/10000)])] :
          List (String × List (String × ℚ))).map fun e =>
            (e.1, e.2.map fun p => (p.1, round4 p.2)) :=
  ⟨by decide, save_load_roundtrip _ (by decide)⟩
